import Mathlib

/-
Verification of the countwords repository (rust variants fast-simple and
fun-with-threads) against its natural-language specification.

Bytes are modelled as natural numbers (the source works on u8 buffers).
Streams are byte lists.  The nondeterministic amount of data a single
BufReader fill returns is modelled by a chunk-size parameter k: one
fill_buf/consume round yields the next k bytes (or whatever remains).
-/

set_option maxHeartbeats 1000000

namespace CountWords

/-- Frequency table model: the hashbrown HashMap from word (byte string) to
count, as an association list in insertion order.  Keys stay unique because
the miss path of increment is only taken when the lookup failed. -/
abbrev CountMap := List (List Nat × Nat)

/-- IN_BUFFER_SIZE from both sources: the BufReader capacity, hence the target
size of one buffer fill. -/
def IN_BUFFER_SIZE : Nat := 131072

/-- Model of u8.is_ascii_whitespace, the byte classifier behind
str.split_ascii_whitespace: space (32), tab (9), line feed (10),
form feed (12), carriage return (13). -/
def isAsciiWhitespace (b : Nat) : Bool :=
  b == 32 || b == 9 || b == 10 || b == 12 || b == 13

/-- Model of u8.to_ascii_lowercase: ASCII uppercase bytes (65..90) are shifted
up by 32, every other byte is kept as it is. -/
def makeAsciiLowercaseByte (b : Nat) : Nat :=
  if 65 ≤ b ∧ b ≤ 90 then b + 32 else b

/-- Model of make_ascii_lowercase applied in place to a whole buffer
(bytes_buffer.make_ascii_lowercase() in both sources). -/
def makeAsciiLowercase (l : List Nat) : List Nat :=
  l.map makeAsciiLowercaseByte

/-- A UTF-8 continuation byte: 0x80..0xBF. -/
def isUtf8ContByte (b : Nat) : Bool :=
  decide (128 ≤ b) && decide (b ≤ 191)

/-- One complete UTF-8 encoded scalar value, exactly the byte sequences that
str::from_utf8 accepts: 1-byte ASCII, 2-byte leads C2..DF, 3-byte leads
E0..EF with the surrogate and overlong second-byte restrictions, 4-byte
leads F0..F4 with the overlong and out-of-range second-byte restrictions. -/
def isUtf8CharSeq : List Nat → Bool
  | [b] => decide (b ≤ 127)
  | [b, c1] => decide (194 ≤ b ∧ b ≤ 223) && isUtf8ContByte c1
  | [b, c1, c2] =>
      ((b == 224 && decide (160 ≤ c1 ∧ c1 ≤ 191)) ||
        ((decide (225 ≤ b ∧ b ≤ 236) || b == 238 || b == 239) && isUtf8ContByte c1) ||
        (b == 237 && decide (128 ≤ c1 ∧ c1 ≤ 159))) && isUtf8ContByte c2
  | [b, c1, c2, c3] =>
      ((b == 240 && decide (144 ≤ c1 ∧ c1 ≤ 191)) ||
        (decide (241 ≤ b ∧ b ≤ 243) && isUtf8ContByte c1) ||
        (b == 244 && decide (128 ≤ c1 ∧ c1 ≤ 143))) && isUtf8ContByte c2 && isUtf8ContByte c3
  | _ => false

/-- UTF-8 validity of a byte list: whether str::from_utf8 on this buffer
returns Ok.  Each step consumes the window announced by the lead byte
(1 byte below 0x80, 2 up to 0xDF, 3 up to 0xEF, 4 above) and checks it with
isUtf8CharSeq; a window cut short by the end of the buffer is invalid, which
the patterns for lists shorter than four bytes spell out. -/
def validUtf8 : List Nat → Bool
  | [] => true
  | [b] => decide (b ≤ 127)
  | [b, c1] =>
    if b ≤ 127 then validUtf8 [c1]
    else if b ≤ 223 then isUtf8CharSeq [b, c1]
    else false
  | [b, c1, c2] =>
    if b ≤ 127 then validUtf8 [c1, c2]
    else if b ≤ 223 then isUtf8CharSeq [b, c1] && validUtf8 [c2]
    else if b ≤ 239 then isUtf8CharSeq [b, c1, c2]
    else false
  | b :: c1 :: c2 :: c3 :: rest =>
    if b ≤ 127 then validUtf8 (c1 :: c2 :: c3 :: rest)
    else if b ≤ 223 then isUtf8CharSeq [b, c1] && validUtf8 (c2 :: c3 :: rest)
    else if b ≤ 239 then isUtf8CharSeq [b, c1, c2] && validUtf8 (c3 :: rest)
    else isUtf8CharSeq [b, c1, c2, c3] && validUtf8 rest

/-- A byte list that is a concatenation of complete UTF-8 scalar sequences.
Used as the inductive characterisation of validUtf8 in the proofs. -/
inductive Utf8Chars : List Nat → Prop
  | nil : Utf8Chars []
  | cons (c rest : List Nat) : isUtf8CharSeq c = true → Utf8Chars rest →
      Utf8Chars (c ++ rest)

/-- Model of str.split_ascii_whitespace over the byte buffer.  The
accumulator acc holds the bytes of the current in-progress token in
reverse; a token is emitted when a whitespace byte or the end of the
buffer is reached. -/
def splitAuxWS : List Nat → List Nat → List (List Nat)
  | [], acc => if acc.isEmpty then [] else [acc.reverse]
  | b :: rest, acc =>
    if isAsciiWhitespace b then
      if acc.isEmpty then splitAuxWS rest [] else acc.reverse :: splitAuxWS rest []
    else splitAuxWS rest (b :: acc)

/-- str.split_ascii_whitespace: the whitespace-delimited tokens of a buffer,
with empty runs discarded.  Byte-level splitting agrees with the char-level
splitting of the source because all bytes of a multi-byte UTF-8 character
are at least 0x80 and therefore never ASCII whitespace. -/
def splitAsciiWhitespace (l : List Nat) : List (List Nat) :=
  splitAuxWS l []

/-- The hit path of increment: counts.get_mut(word) found an entry, so the
first entry with this key gets its count raised by one. -/
def bumpExisting (word : List Nat) : CountMap → CountMap
  | [] => []
  | q :: rest =>
    if q.1 = word then (q.1, q.2 + 1) :: rest else q :: bumpExisting word rest

/-- increment from both sources: one lookup decides membership; a hit
increments the existing count in place, a miss inserts the word with count 1
through insert_unique_unchecked, the insertion path that assumes the key is
absent (sound because the lookup just failed). -/
def increment (counts : CountMap) (word : List Nat) : CountMap :=
  if counts.any (fun p => p.1 == word) then bumpExisting word counts
  else counts ++ [(word, 1)]

/-- Model of in_buffer.read_until(10, buf): the bytes taken from the stream
up to and including the first line feed (or the whole stream when none
occurs), paired with the remainder of the stream. -/
def read_until_newline : List Nat → List Nat × List Nat
  | [] => ([], [])
  | b :: rest =>
    if b = 10 then ([b], rest)
    else (b :: (read_until_newline rest).1, (read_until_newline rest).2)

/-- One round of the read loop shared by both sources: fill_buf hands over
the next k stream bytes (take k), consume advances the stream (drop k), then
read_until(10) extends the buffer to the next line feed or end of stream.
Returns the completed chunk and the remaining stream. -/
def next_chunk (k : Nat) (input : List Nat) : List Nat × List Nat :=
  (input.take k ++ (read_until_newline (input.drop k)).1,
    (read_until_newline (input.drop k)).2)

/-- The chunk sequence produced by iterating next_chunk until the buffer
comes back empty.  The fuel argument only bounds the recursion depth; every
round consumes at least one byte, so fuel = input.length always suffices
(chunks below instantiates it that way). -/
def chunksF (k : Nat) : Nat → List Nat → List (List Nat)
  | _, [] => []
  | 0, _ :: _ => []
  | fuel + 1, b :: t =>
    (next_chunk k (b :: t)).1 :: chunksF k fuel (next_chunk k (b :: t)).2

/-- All chunks the read loop produces for a stream, for fill size k. -/
def chunks (k : Nat) (input : List Nat) : List (List Nat) :=
  chunksF k input.length input

/-- The processing loop of fast-simple try_main, one iteration per chunk:
make_ascii_lowercase, str::from_utf8 (an invalid chunk aborts the whole run
through the question-mark operator), split_ascii_whitespace, and increment
for every word. -/
def runChunks : CountMap → List (List Nat) → Except Unit CountMap
  | m, [] => Except.ok m
  | m, chunk :: rest =>
    if validUtf8 (makeAsciiLowercase chunk) then
      runChunks
        ((splitAsciiWhitespace (makeAsciiLowercase chunk)).foldl increment m) rest
    else Except.error ()

/-- Reference for claim C1, written from the words of the spec: lowercase the
whole input and split it in one pass, counting every token; an encoding
failure anywhere in the input is fatal. -/
def one_pass_counts (input : List Nat) : Except Unit CountMap :=
  if validUtf8 (makeAsciiLowercase input) then
    Except.ok ((splitAsciiWhitespace (makeAsciiLowercase input)).foldl increment [])
  else Except.error ()

/-- Insertion step of the ascending-by-count sort used to model
sort_unstable_by_key(count). -/
def insertByCount (p : List Nat × Nat) : CountMap → CountMap
  | [] => [p]
  | q :: rest => if p.2 ≤ q.2 then p :: q :: rest else q :: insertByCount p rest

/-- Model of ordered.sort_unstable_by_key(count): some sort of the drained
(word, count) pairs that is ascending by count.  The source sort is unstable
(ties may land in any order); this model fixes one admissible order. -/
def sort_unstable_by_key : CountMap → CountMap
  | [] => []
  | p :: rest => insertByCount p (sort_unstable_by_key rest)

/-- Decimal digit bytes of a natural number, most significant first
(the Display formatting of the count in writeln).  fuel ≥ n suffices. -/
def decimalDigitsAux : Nat → Nat → List Nat
  | 0, _ => []
  | fuel + 1, n =>
    if n < 10 then [48 + n] else decimalDigitsAux fuel (n / 10) ++ [48 + n % 10]

/-- Decimal representation of a count, as bytes. -/
def decimalDigits (n : Nat) : List Nat :=
  decimalDigitsAux (n + 1) n

/-- The buffered output sink (BufWriter over stdout): the lines written so
far and whether flush has been called. -/
structure Sink where
  lines : List (List Nat)
  flushed : Bool
deriving DecidableEq

/-- The emitter shared by both sources: drain the table, sort ascending by
count with sort_unstable_by_key, iterate in reverse writing
word, space, count, line feed per entry with writeln, then flush. -/
def emit (counts : CountMap) : Sink :=
  { lines :=
      ((sort_unstable_by_key counts).reverse).map
        (fun p => p.1 ++ [32] ++ decimalDigits p.2 ++ [10]),
    flushed := true }

/-- Observable outcome of one whole process run: exit code, stdout lines,
number of diagnostic lines printed to stderr. -/
structure RunResult where
  exitCode : Nat
  stdout : List (List Nat)
  stderrLines : Nat
deriving DecidableEq

namespace FastSimple

/-- The frequency table computed by the read loop of fast-simple try_main
(lines 62..87 of the source), for fill size k. -/
def word_counts (k : Nat) (input : List Nat) : Except Unit CountMap :=
  runChunks [] (chunks k input)

/-- fast-simple try_main: the loop, then sort, emit and flush.  A read or
encoding failure propagates out as Err. -/
def try_main (k : Nat) (input : List Nat) : Except Unit Sink :=
  match word_counts k input with
  | Except.ok counts => Except.ok (emit counts)
  | Except.error e => Except.error e

/-- fast-simple main: on Err print one diagnostic line and exit(1),
otherwise exit normally with code 0. -/
def main (k : Nat) (input : List Nat) : RunResult :=
  match try_main k input with
  | Except.ok sink => { exitCode := 0, stdout := sink.lines, stderrLines := 0 }
  | Except.error _ => { exitCode := 1, stdout := [], stderrLines := 1 }

/-- Bytes of chunk buffers still allocated when the fast-simple run ends:
line 81 of the source passes every chunk to Vec::leak, so every chunk buffer
stays live until the process exits (the map keys borrow from these leaked
buffers). -/
def leaked_bytes (k : Nat) (input : List Nat) : Nat :=
  ((chunks k input).map List.length).sum

end FastSimple

namespace FunWithThreads

/-- Reader stage of fun-with-threads (ready_bytes_buffer): the same
fill_buf/read_until chunking as fast-simple, each chunk lowercased in place
and sent over the first channel in FIFO order. -/
def ready_bytes_buffer (k : Nat) (input : List Nat) : List (List Nat) :=
  (chunks k input).map makeAsciiLowercase

/-- Tokenizer stage of fun-with-threads (ready_words): receives chunks in
FIFO order; from_utf8_mut with the question-mark operator aborts the stage
at the first invalid chunk, so later chunks are never tokenized, while the
words of earlier chunks were already sent downstream. -/
def ready_words : List (List Nat) → List (List Nat)
  | [] => []
  | c :: cs =>
    if validUtf8 c then splitAsciiWhitespace c ++ ready_words cs else []

/-- The frequency table computed by the main thread of fun-with-threads:
increment for every word received over the second channel, in FIFO order,
until the channel closes. -/
def word_counts (k : Nat) (input : List Nat) : CountMap :=
  (ready_words (ready_bytes_buffer k input)).foldl increment []

/-- fun-with-threads try_main: worker-thread failures are discarded
(spawn with a discarded result); the main thread always reaches the sort,
emit and flush.  Only a write failure, not modelled here, could yield Err. -/
def try_main (k : Nat) (input : List Nat) : Except Unit Sink :=
  Except.ok (emit (word_counts k input))

/-- fun-with-threads main: same top-level wrapper as fast-simple. -/
def main (k : Nat) (input : List Nat) : RunResult :=
  match try_main k input with
  | Except.ok sink => { exitCode := 0, stdout := sink.lines, stderrLines := 0 }
  | Except.error _ => { exitCode := 1, stdout := [], stderrLines := 1 }

end FunWithThreads

end CountWords

namespace CountWords

theorem read_until_newline_append (l : List Nat) :
    (read_until_newline l).1 ++ (read_until_newline l).2 = l := by
  induction l with
  | nil => rfl
  | cons b rest ih =>
    by_cases hb : b = 10
    · simp [read_until_newline, hb]
    · simp [read_until_newline, hb, ih]

theorem read_until_newline_fst_ne_nil (l : List Nat) (h : l ≠ []) :
    (read_until_newline l).1 ≠ [] := by
  cases l with
  | nil => exact absurd rfl h
  | cons b rest => by_cases hb : b = 10 <;> simp [read_until_newline, hb]

theorem read_until_newline_ends (l : List Nat)
    (h : (read_until_newline l).2 ≠ []) :
    ∃ zs, (read_until_newline l).1 = zs ++ [10] := by
  induction l with
  | nil => simp [read_until_newline] at h
  | cons b rest ih =>
    by_cases hb : b = 10
    · exact ⟨[], by simp [read_until_newline, hb]⟩
    · simp only [read_until_newline, if_neg hb] at h ⊢
      obtain ⟨zs, hzs⟩ := ih h
      exact ⟨b :: zs, by simp [hzs]⟩

theorem next_chunk_append (k : Nat) (input : List Nat) :
    (next_chunk k input).1 ++ (next_chunk k input).2 = input := by
  simp [next_chunk, List.append_assoc, read_until_newline_append]

theorem next_chunk_fst_ne_nil (k : Nat) (input : List Nat) (h : input ≠ []) :
    (next_chunk k input).1 ≠ [] := by
  cases k with
  | zero =>
    simpa [next_chunk] using read_until_newline_fst_ne_nil input h
  | succ n =>
    cases input with
    | nil => exact absurd rfl h
    | cons b t => simp [next_chunk]

theorem next_chunk_snd_length (k : Nat) (input : List Nat) (h : input ≠ []) :
    (next_chunk k input).2.length < input.length := by
  have happ := next_chunk_append k input
  have hne := next_chunk_fst_ne_nil k input h
  have hlen : (next_chunk k input).1.length + (next_chunk k input).2.length
      = input.length := by
    rw [← List.length_append, happ]
  have hpos : 0 < (next_chunk k input).1.length := List.length_pos.mpr hne
  omega

theorem next_chunk_fst_ends (k : Nat) (input : List Nat)
    (h : (next_chunk k input).2 ≠ []) :
    ∃ zs, (next_chunk k input).1 = zs ++ [10] := by
  obtain ⟨zs, hzs⟩ := read_until_newline_ends (input.drop k) h
  exact ⟨input.take k ++ zs, by simp [next_chunk, hzs]⟩

theorem chunksF_nil (k f : Nat) : chunksF k f [] = [] := by
  cases f <;> rfl

theorem chunksF_congr (k : Nat) :
    ∀ f1 f2 input, input.length ≤ f1 → input.length ≤ f2 →
      chunksF k f1 input = chunksF k f2 input := by
  intro f1
  induction f1 with
  | zero =>
    intro f2 input h1 h2
    have hnil : input = [] := List.eq_nil_of_length_eq_zero (Nat.le_zero.mp h1)
    subst hnil
    rw [chunksF_nil, chunksF_nil]
  | succ n ih =>
    intro f2 input h1 h2
    cases input with
    | nil => rw [chunksF_nil, chunksF_nil]
    | cons b t =>
      cases f2 with
      | zero => simp at h2
      | succ m =>
        have hlt := next_chunk_snd_length k (b :: t) (by simp)
        show (next_chunk k (b :: t)).1 :: chunksF k n (next_chunk k (b :: t)).2
            = (next_chunk k (b :: t)).1 :: chunksF k m (next_chunk k (b :: t)).2
        rw [ih m (next_chunk k (b :: t)).2
          (by simp only [List.length_cons] at hlt h1; omega)
          (by simp only [List.length_cons] at hlt h2; omega)]

theorem chunks_nil (k : Nat) : chunks k [] = [] := rfl

theorem chunks_cons (k b : Nat) (t : List Nat) :
    chunks k (b :: t)
      = (next_chunk k (b :: t)).1 :: chunks k (next_chunk k (b :: t)).2 := by
  have hlt := next_chunk_snd_length k (b :: t) (by simp)
  unfold chunks
  have h1 : chunksF k (b :: t).length (b :: t)
      = (next_chunk k (b :: t)).1 :: chunksF k t.length (next_chunk k (b :: t)).2 := rfl
  rw [h1, chunksF_congr k t.length (next_chunk k (b :: t)).2.length
    (next_chunk k (b :: t)).2
    (by simp only [List.length_cons] at hlt; omega) (Nat.le_refl _)]

theorem chunks_flatten (k : Nat) (input : List Nat) :
    (chunks k input).flatten = input := by
  cases input with
  | nil => simp [chunks_nil]
  | cons b t =>
    have hlt := next_chunk_snd_length k (b :: t) (by simp)
    rw [chunks_cons, List.flatten_cons,
      chunks_flatten k (next_chunk k (b :: t)).2]
    exact next_chunk_append k (b :: t)
termination_by input.length
decreasing_by
  simpa using hlt

theorem splitAuxWS_append_ws (zs l2 acc : List Nat) :
    splitAuxWS (zs ++ 10 :: l2) acc
      = splitAuxWS (zs ++ [10]) acc ++ splitAuxWS l2 [] := by
  induction zs generalizing acc with
  | nil =>
    by_cases h : acc.isEmpty <;>
      simp [splitAuxWS, isAsciiWhitespace, h]
  | cons z zs ih =>
    by_cases hz : isAsciiWhitespace z = true
    · by_cases h : acc.isEmpty <;>
        simp [splitAuxWS, hz, h, ih]
    · simp [splitAuxWS, hz, ih]

theorem splitAuxWS_ne_nil (l : List Nat) :
    ∀ acc t, t ∈ splitAuxWS l acc → t ≠ [] := by
  induction l with
  | nil =>
    intro acc t ht
    by_cases h : acc.isEmpty
    · simp [splitAuxWS, h] at ht
    · simp only [splitAuxWS, if_neg h, List.mem_singleton] at ht
      subst ht
      simp only [ne_eq, List.reverse_eq_nil_iff]
      intro hacc
      rw [hacc] at h
      exact h rfl
  | cons b rest ih =>
    intro acc t ht
    by_cases hb : isAsciiWhitespace b = true
    · by_cases h : acc.isEmpty
      · simp only [splitAuxWS, if_pos hb, if_pos h] at ht
        exact ih [] t ht
      · simp only [splitAuxWS, if_pos hb, if_neg h, List.mem_cons] at ht
        rcases ht with ht | ht
        · subst ht
          simp only [ne_eq, List.reverse_eq_nil_iff]
          intro hacc
          rw [hacc] at h
          exact h rfl
        · exact ih [] t ht
    · simp only [splitAuxWS, if_neg hb] at ht
      exact ih (b :: acc) t ht

theorem splitAuxWS_no_ws (l : List Nat) :
    ∀ acc, (∀ b ∈ acc, isAsciiWhitespace b = false) →
      ∀ t ∈ splitAuxWS l acc, ∀ b ∈ t, isAsciiWhitespace b = false := by
  induction l with
  | nil =>
    intro acc hacc t ht b hb
    by_cases h : acc.isEmpty
    · simp [splitAuxWS, h] at ht
    · simp only [splitAuxWS, if_neg h, List.mem_singleton] at ht
      subst ht
      exact hacc b (List.mem_reverse.mp hb)
  | cons c rest ih =>
    intro acc hacc t ht b hb
    by_cases hc : isAsciiWhitespace c = true
    · by_cases h : acc.isEmpty
      · simp only [splitAuxWS, if_pos hc, if_pos h] at ht
        exact ih [] (by simp) t ht b hb
      · simp only [splitAuxWS, if_pos hc, if_neg h, List.mem_cons] at ht
        rcases ht with ht | ht
        · subst ht
          exact hacc b (List.mem_reverse.mp hb)
        · exact ih [] (by simp) t ht b hb
    · simp only [splitAuxWS, if_neg hc] at ht
      refine ih (c :: acc) ?_ t ht b hb
      intro x hx
      rcases List.mem_cons.mp hx with hx | hx
      · subst hx
        exact Bool.eq_false_iff.mpr hc
      · exact hacc x hx

theorem splitAuxWS_subset (l : List Nat) :
    ∀ acc t b, t ∈ splitAuxWS l acc → b ∈ t → b ∈ l ∨ b ∈ acc := by
  induction l with
  | nil =>
    intro acc t b ht hb
    by_cases h : acc.isEmpty
    · simp [splitAuxWS, h] at ht
    · simp only [splitAuxWS, if_neg h, List.mem_singleton] at ht
      subst ht
      exact Or.inr (List.mem_reverse.mp hb)
  | cons c rest ih =>
    intro acc t b ht hb
    by_cases hc : isAsciiWhitespace c = true
    · by_cases h : acc.isEmpty
      · simp only [splitAuxWS, if_pos hc, if_pos h] at ht
        rcases ih [] t b ht hb with hx | hx
        · exact Or.inl (List.mem_cons_of_mem c hx)
        · simp at hx
      · simp only [splitAuxWS, if_pos hc, if_neg h, List.mem_cons] at ht
        rcases ht with ht | ht
        · subst ht
          exact Or.inr (List.mem_reverse.mp hb)
        · rcases ih [] t b ht hb with hx | hx
          · exact Or.inl (List.mem_cons_of_mem c hx)
          · simp at hx
    · simp only [splitAuxWS, if_neg hc] at ht
      rcases ih (c :: acc) t b ht hb with hx | hx
      · exact Or.inl (List.mem_cons_of_mem c hx)
      · rcases List.mem_cons.mp hx with hx | hx
        · exact Or.inl (hx ▸ List.mem_cons_self c rest)
        · exact Or.inr hx

end CountWords

namespace CountWords

theorem utf8CharSeq_ne_nil (c : List Nat) (hc : isUtf8CharSeq c = true) :
    c ≠ [] := by
  intro h
  subst h
  simp [isUtf8CharSeq] at hc

theorem utf8CharSeq_low_head (b : Nat) (cs : List Nat)
    (hc : isUtf8CharSeq (b :: cs) = true) (hb : b ≤ 127) : cs = [] := by
  rcases cs with _ | ⟨c1, _ | ⟨c2, _ | ⟨c3, _ | ⟨c4, c5s⟩⟩⟩⟩
  · rfl
  · simp only [isUtf8CharSeq, isUtf8ContByte, Bool.and_eq_true,
      decide_eq_true_eq] at hc
    omega
  · simp only [isUtf8CharSeq, isUtf8ContByte, Bool.and_eq_true, Bool.or_eq_true,
      decide_eq_true_eq, beq_iff_eq] at hc
    omega
  · simp only [isUtf8CharSeq, isUtf8ContByte, Bool.and_eq_true, Bool.or_eq_true,
      decide_eq_true_eq, beq_iff_eq] at hc
    omega
  · simp [isUtf8CharSeq] at hc

theorem utf8CharSeq_tail_ge (b : Nat) (cs : List Nat)
    (hc : isUtf8CharSeq (b :: cs) = true) : ∀ x ∈ cs, 128 ≤ x := by
  rcases cs with _ | ⟨c1, _ | ⟨c2, _ | ⟨c3, _ | ⟨c4, c5s⟩⟩⟩⟩
  · intro x hx
    simp at hx
  · simp only [isUtf8CharSeq, isUtf8ContByte, Bool.and_eq_true,
      decide_eq_true_eq] at hc
    intro x hx
    rcases List.mem_singleton.mp hx with rfl
    omega
  · simp only [isUtf8CharSeq, isUtf8ContByte, Bool.and_eq_true, Bool.or_eq_true,
      decide_eq_true_eq, beq_iff_eq] at hc
    intro x hx
    rcases List.mem_cons.mp hx with rfl | hx
    · omega
    · rcases List.mem_singleton.mp hx with rfl
      omega
  · simp only [isUtf8CharSeq, isUtf8ContByte, Bool.and_eq_true, Bool.or_eq_true,
      decide_eq_true_eq, beq_iff_eq] at hc
    intro x hx
    rcases List.mem_cons.mp hx with rfl | hx
    · omega
    · rcases List.mem_cons.mp hx with rfl | hx
      · omega
      · rcases List.mem_singleton.mp hx with rfl
        omega
  · simp [isUtf8CharSeq] at hc

theorem validUtf8_cons_low (b : Nat) (rest : List Nat) (hb : b ≤ 127) :
    validUtf8 (b :: rest) = validUtf8 rest := by
  rcases rest with _ | ⟨c1, _ | ⟨c2, _ | ⟨c3, rest3⟩⟩⟩ <;>
    simp [validUtf8, hb]

theorem validUtf8_cons_two (b c1 : Nat) (rest : List Nat)
    (h1 : 128 ≤ b) (h2 : b ≤ 223) :
    validUtf8 (b :: c1 :: rest) = (isUtf8CharSeq [b, c1] && validUtf8 rest) := by
  have n1 : ¬ b ≤ 127 := by omega
  rcases rest with _ | ⟨c2, _ | ⟨c3, rest3⟩⟩ <;>
    simp [validUtf8, n1, h2]

theorem validUtf8_cons_three (b c1 c2 : Nat) (rest : List Nat)
    (h1 : 224 ≤ b) (h2 : b ≤ 239) :
    validUtf8 (b :: c1 :: c2 :: rest)
      = (isUtf8CharSeq [b, c1, c2] && validUtf8 rest) := by
  have n1 : ¬ b ≤ 127 := by omega
  have n2 : ¬ b ≤ 223 := by omega
  rcases rest with _ | ⟨c3, rest3⟩ <;>
    simp [validUtf8, n1, n2, h2]

theorem validUtf8_cons_four (b c1 c2 c3 : Nat) (rest : List Nat)
    (h1 : 240 ≤ b) :
    validUtf8 (b :: c1 :: c2 :: c3 :: rest)
      = (isUtf8CharSeq [b, c1, c2, c3] && validUtf8 rest) := by
  have n1 : ¬ b ≤ 127 := by omega
  have n2 : ¬ b ≤ 223 := by omega
  have n3 : ¬ b ≤ 239 := by omega
  simp [validUtf8, n1, n2, n3]

theorem utf8Chars_valid (l : List Nat) (h : Utf8Chars l) :
    validUtf8 l = true := by
  induction h with
  | nil => rfl
  | cons c rest hc _ ih =>
    rcases c with _ | ⟨b, _ | ⟨c1, _ | ⟨c2, _ | ⟨c3, _ | ⟨c4, c5s⟩⟩⟩⟩⟩
    · simp [isUtf8CharSeq] at hc
    · have hb : b ≤ 127 := by
        simpa [isUtf8CharSeq] using hc
      rw [List.singleton_append, validUtf8_cons_low b rest hb]
      exact ih
    · have hb : 194 ≤ b ∧ b ≤ 223 := by
        have hc2 := hc
        simp only [isUtf8CharSeq, isUtf8ContByte, Bool.and_eq_true,
          decide_eq_true_eq] at hc2
        exact hc2.1
      rw [show [b, c1] ++ rest = b :: c1 :: rest by simp,
        validUtf8_cons_two b c1 rest (by omega) hb.2, Bool.and_eq_true]
      exact ⟨hc, ih⟩
    · have hb : 224 ≤ b ∧ b ≤ 239 := by
        have hc2 := hc
        simp only [isUtf8CharSeq, isUtf8ContByte, Bool.and_eq_true,
          Bool.or_eq_true, decide_eq_true_eq, beq_iff_eq] at hc2
        omega
      rw [show [b, c1, c2] ++ rest = b :: c1 :: c2 :: rest by simp,
        validUtf8_cons_three b c1 c2 rest hb.1 hb.2, Bool.and_eq_true]
      exact ⟨hc, ih⟩
    · have hb : 240 ≤ b := by
        have hc2 := hc
        simp only [isUtf8CharSeq, isUtf8ContByte, Bool.and_eq_true,
          Bool.or_eq_true, decide_eq_true_eq, beq_iff_eq] at hc2
        omega
      rw [show [b, c1, c2, c3] ++ rest = b :: c1 :: c2 :: c3 :: rest by simp,
        validUtf8_cons_four b c1 c2 c3 rest hb, Bool.and_eq_true]
      exact ⟨hc, ih⟩
    · simp [isUtf8CharSeq] at hc

theorem validUtf8_utf8Chars (l : List Nat) (h : validUtf8 l = true) :
    Utf8Chars l := by
  cases l with
  | nil => exact Utf8Chars.nil
  | cons b rest =>
    by_cases h1 : b ≤ 127
    · rw [validUtf8_cons_low b rest h1] at h
      have hrec := validUtf8_utf8Chars rest h
      have hchar : isUtf8CharSeq [b] = true := by
        simp [isUtf8CharSeq, h1]
      simpa using Utf8Chars.cons [b] rest hchar hrec
    · by_cases h2 : b ≤ 223
      · cases rest with
        | nil =>
          simp [validUtf8, h1, h2] at h
        | cons c1 rest1 =>
          rw [validUtf8_cons_two b c1 rest1 (by omega) h2,
            Bool.and_eq_true] at h
          have hrec := validUtf8_utf8Chars rest1 h.2
          simpa using Utf8Chars.cons [b, c1] rest1 h.1 hrec
      · by_cases h3 : b ≤ 239
        · cases rest with
          | nil => simp [validUtf8, h1, h2, h3] at h
          | cons c1 rest1 =>
            cases rest1 with
            | nil => simp [validUtf8, h1, h2, h3] at h
            | cons c2 rest2 =>
              rw [validUtf8_cons_three b c1 c2 rest2 (by omega) h3,
                Bool.and_eq_true] at h
              have hrec := validUtf8_utf8Chars rest2 h.2
              simpa using Utf8Chars.cons [b, c1, c2] rest2 h.1 hrec
        · cases rest with
          | nil => simp [validUtf8, h1, h2, h3] at h
          | cons c1 rest1 =>
            cases rest1 with
            | nil => simp [validUtf8, h1, h2, h3] at h
            | cons c2 rest2 =>
              cases rest2 with
              | nil => simp [validUtf8, h1, h2, h3] at h
              | cons c3 rest3 =>
                rw [validUtf8_cons_four b c1 c2 c3 rest3 (by omega),
                  Bool.and_eq_true] at h
                have hrec := validUtf8_utf8Chars rest3 h.2
                simpa using Utf8Chars.cons [b, c1, c2, c3] rest3 h.1 hrec
termination_by l.length
decreasing_by all_goals (subst_vars; simp only [List.length_cons]; omega)

theorem utf8Chars_append (a b : List Nat) (ha : Utf8Chars a)
    (hb : Utf8Chars b) : Utf8Chars (a ++ b) := by
  induction ha with
  | nil => simpa using hb
  | cons c rest hc _ ih =>
    rw [List.append_assoc]
    exact Utf8Chars.cons c (rest ++ b) hc ih

theorem utf8Chars_split (xs : List Nat) (w : Nat) (ys : List Nat)
    (hw : w ≤ 127) (h : Utf8Chars (xs ++ w :: ys)) :
    Utf8Chars (xs ++ [w]) ∧ Utf8Chars ys := by
  generalize hl : xs ++ w :: ys = l at h
  induction h generalizing xs ys with
  | nil => simp at hl
  | cons c rest hc hrest ih =>
    rcases List.append_eq_append_iff.mp hl with ⟨a2, hc2, hrest2⟩ | ⟨c2, hxs, hrest2⟩
    · cases a2 with
      | nil =>
        simp only [List.append_nil] at hc2
        simp only [List.nil_append] at hrest2
        subst hc2
        obtain ⟨hA, hB⟩ := ih [] ys (by simpa using hrest2)
        refine ⟨?_, hB⟩
        have hcons := Utf8Chars.cons c [w] hc (by simpa using hA)
        exact hcons
      | cons a0 a3 =>
        rw [List.cons_append] at hrest2
        injection hrest2 with ha0 hys
        subst ha0
        cases xs with
        | nil =>
          simp only [List.nil_append] at hc2
          subst hc2
          have ha3 : a3 = [] := utf8CharSeq_low_head w a3 hc hw
          subst ha3
          simp only [List.nil_append] at hys
          subst hys
          constructor
          · simpa using Utf8Chars.cons [w] [] hc Utf8Chars.nil
          · exact hrest
        | cons x xt =>
          exfalso
          have hxc : c = x :: (xt ++ w :: a3) := by
            rw [hc2]
            simp
          have hmem : w ∈ xt ++ w :: a3 :=
            List.mem_append_right xt (List.mem_cons_self w a3)
          have hge := utf8CharSeq_tail_ge x (xt ++ w :: a3) (hxc ▸ hc) w hmem
          omega
    · obtain ⟨hA, hB⟩ := ih c2 ys hrest2.symm
      refine ⟨?_, hB⟩
      rw [hxs, List.append_assoc]
      exact Utf8Chars.cons c (c2 ++ [w]) hc hA

theorem validUtf8_split_newline (zs l2 : List Nat) :
    validUtf8 (zs ++ 10 :: l2)
      = (validUtf8 (zs ++ [10]) && validUtf8 l2) := by
  by_cases h : validUtf8 (zs ++ 10 :: l2) = true
  · have hch := validUtf8_utf8Chars _ h
    obtain ⟨h1, h2⟩ := utf8Chars_split zs 10 l2 (by omega) hch
    rw [h, utf8Chars_valid _ h1, utf8Chars_valid _ h2]
    rfl
  · have h0 : validUtf8 (zs ++ 10 :: l2) = false := Bool.eq_false_iff.mpr h
    rw [h0]
    cases ha : validUtf8 (zs ++ [10]) with
    | false => simp
    | true =>
      cases hb2 : validUtf8 l2 with
      | false => simp
      | true =>
        exfalso
        have hall := utf8Chars_append _ _ (validUtf8_utf8Chars _ ha)
          (validUtf8_utf8Chars _ hb2)
        rw [List.append_assoc] at hall
        exact h (utf8Chars_valid _ (by simpa using hall))

end CountWords

namespace CountWords

theorem makeAsciiLowercase_split (zs r : List Nat) :
    makeAsciiLowercase (zs ++ 10 :: r)
      = makeAsciiLowercase zs ++ 10 :: makeAsciiLowercase r := by
  have h10 : makeAsciiLowercaseByte 10 = 10 := rfl
  simp [makeAsciiLowercase, h10]

theorem makeAsciiLowercase_newline_tail (zs : List Nat) :
    makeAsciiLowercase (zs ++ [10]) = makeAsciiLowercase zs ++ [10] := by
  have h10 : makeAsciiLowercaseByte 10 = 10 := rfl
  simp [makeAsciiLowercase, h10]

theorem splitAsciiWhitespace_append_newline (zs l2 : List Nat) :
    splitAsciiWhitespace (zs ++ 10 :: l2)
      = splitAsciiWhitespace (zs ++ [10]) ++ splitAsciiWhitespace l2 :=
  splitAuxWS_append_ws zs l2 []

theorem validUtf8_lower_split (zs r : List Nat) :
    validUtf8 (makeAsciiLowercase (zs ++ 10 :: r))
      = (validUtf8 (makeAsciiLowercase (zs ++ [10]))
          && validUtf8 (makeAsciiLowercase r)) := by
  rw [makeAsciiLowercase_split, makeAsciiLowercase_newline_tail,
    validUtf8_split_newline]

theorem split_lower_decomp (zs r : List Nat) :
    splitAsciiWhitespace (makeAsciiLowercase (zs ++ 10 :: r))
      = splitAsciiWhitespace (makeAsciiLowercase (zs ++ [10]))
        ++ splitAsciiWhitespace (makeAsciiLowercase r) := by
  rw [makeAsciiLowercase_split, makeAsciiLowercase_newline_tail,
    splitAsciiWhitespace_append_newline]

theorem next_chunk_decomp (k b : Nat) (t : List Nat)
    (hrr : (next_chunk k (b :: t)).2 ≠ []) :
    ∃ zs, (next_chunk k (b :: t)).1 = zs ++ [10]
      ∧ b :: t = zs ++ 10 :: (next_chunk k (b :: t)).2 := by
  obtain ⟨zs, hzs⟩ := next_chunk_fst_ends k (b :: t) hrr
  refine ⟨zs, hzs, ?_⟩
  conv_lhs => rw [← next_chunk_append k (b :: t), hzs]
  simp

theorem runChunks_chunks (k : Nat) (m : CountMap) (input : List Nat) :
    runChunks m (chunks k input)
      = (if validUtf8 (makeAsciiLowercase input) then
          Except.ok
            ((splitAsciiWhitespace (makeAsciiLowercase input)).foldl increment m)
        else Except.error ()) := by
  cases input with
  | nil =>
    simp [chunks_nil, runChunks, makeAsciiLowercase, validUtf8,
      splitAsciiWhitespace, splitAuxWS]
  | cons b t =>
    have hlt := next_chunk_snd_length k (b :: t) (by simp)
    rw [chunks_cons]
    by_cases hrr : (next_chunk k (b :: t)).2 = []
    · have hcbt : (next_chunk k (b :: t)).1 = b :: t := by
        have happ := next_chunk_append k (b :: t)
        rw [hrr, List.append_nil] at happ
        exact happ
      rw [hrr, chunks_nil]
      by_cases hv : validUtf8 (makeAsciiLowercase (b :: t)) = true
      · simp [runChunks, hcbt, hv]
      · simp [runChunks, hcbt, hv]
    · obtain ⟨zs, hzs, hinput⟩ := next_chunk_decomp k b t hrr
      have hval := validUtf8_lower_split zs (next_chunk k (b :: t)).2
      have hsplit := split_lower_decomp zs (next_chunk k (b :: t)).2
      rw [← hzs] at hval hsplit
      rw [← hinput] at hval hsplit
      by_cases hv : validUtf8 (makeAsciiLowercase (next_chunk k (b :: t)).1) = true
      · have hlhs :
            runChunks m
                ((next_chunk k (b :: t)).1 :: chunks k (next_chunk k (b :: t)).2)
              = runChunks
                  ((splitAsciiWhitespace
                    (makeAsciiLowercase (next_chunk k (b :: t)).1)).foldl increment m)
                  (chunks k (next_chunk k (b :: t)).2) := by
          simp [runChunks, hv]
        rw [hlhs, runChunks_chunks k _ (next_chunk k (b :: t)).2, hval, hv,
          hsplit, List.foldl_append]
        simp
      · have hlhs :
            runChunks m
                ((next_chunk k (b :: t)).1 :: chunks k (next_chunk k (b :: t)).2)
              = Except.error () := by
          simp [runChunks, hv]
        have hvfalse :
            validUtf8 (makeAsciiLowercase (next_chunk k (b :: t)).1) = false :=
          Bool.eq_false_iff.mpr hv
        rw [hlhs, hval, hvfalse]
        simp
termination_by input.length
decreasing_by all_goals (subst_vars; exact hlt)

theorem chunk_tokens_flatten (k : Nat) (input : List Nat) :
    ((chunks k input).map
        (fun c => splitAsciiWhitespace (makeAsciiLowercase c))).flatten
      = splitAsciiWhitespace (makeAsciiLowercase input) := by
  cases input with
  | nil =>
    simp [chunks_nil, makeAsciiLowercase, splitAsciiWhitespace, splitAuxWS]
  | cons b t =>
    have hlt := next_chunk_snd_length k (b :: t) (by simp)
    rw [chunks_cons, List.map_cons, List.flatten_cons,
      chunk_tokens_flatten k (next_chunk k (b :: t)).2]
    by_cases hrr : (next_chunk k (b :: t)).2 = []
    · have hcbt : (next_chunk k (b :: t)).1 = b :: t := by
        have happ := next_chunk_append k (b :: t)
        rw [hrr, List.append_nil] at happ
        exact happ
      rw [hrr, hcbt]
      simp [makeAsciiLowercase, splitAsciiWhitespace, splitAuxWS]
    · obtain ⟨zs, hzs, hinput⟩ := next_chunk_decomp k b t hrr
      have hsplit := split_lower_decomp zs (next_chunk k (b :: t)).2
      rw [← hzs] at hsplit
      rw [← hinput] at hsplit
      rw [hsplit]
termination_by input.length
decreasing_by all_goals (subst_vars; exact hlt)

theorem ready_words_chunks (k : Nat) (input : List Nat)
    (hv : validUtf8 (makeAsciiLowercase input) = true) :
    FunWithThreads.ready_words ((chunks k input).map makeAsciiLowercase)
      = splitAsciiWhitespace (makeAsciiLowercase input) := by
  cases input with
  | nil =>
    simp [chunks_nil, FunWithThreads.ready_words, makeAsciiLowercase,
      splitAsciiWhitespace, splitAuxWS]
  | cons b t =>
    have hlt := next_chunk_snd_length k (b :: t) (by simp)
    rw [chunks_cons, List.map_cons]
    by_cases hrr : (next_chunk k (b :: t)).2 = []
    · have hcbt : (next_chunk k (b :: t)).1 = b :: t := by
        have happ := next_chunk_append k (b :: t)
        rw [hrr, List.append_nil] at happ
        exact happ
      rw [hrr, chunks_nil, hcbt]
      simp only [List.map_nil, FunWithThreads.ready_words, hv]
      simp
    · obtain ⟨zs, hzs, hinput⟩ := next_chunk_decomp k b t hrr
      have hval := validUtf8_lower_split zs (next_chunk k (b :: t)).2
      have hsplit := split_lower_decomp zs (next_chunk k (b :: t)).2
      rw [← hzs] at hval hsplit
      rw [← hinput] at hval hsplit
      rw [hv] at hval
      have hboth := hval.symm
      rw [Bool.and_eq_true] at hboth
      have hcv : validUtf8 (makeAsciiLowercase (next_chunk k (b :: t)).1) = true :=
        hboth.1
      have hrv : validUtf8 (makeAsciiLowercase (next_chunk k (b :: t)).2) = true :=
        hboth.2
      have hrw :
          FunWithThreads.ready_words
              (makeAsciiLowercase (next_chunk k (b :: t)).1
                :: (chunks k (next_chunk k (b :: t)).2).map makeAsciiLowercase)
            = splitAsciiWhitespace (makeAsciiLowercase (next_chunk k (b :: t)).1)
              ++ FunWithThreads.ready_words
                  ((chunks k (next_chunk k (b :: t)).2).map makeAsciiLowercase) := by
        simp [FunWithThreads.ready_words, hcv]
      rw [hrw, ready_words_chunks k (next_chunk k (b :: t)).2 hrv, hsplit]
termination_by input.length
decreasing_by all_goals (subst_vars; exact hlt)

theorem word_counts_eq_one_pass (k : Nat) (input : List Nat) :
    FastSimple.word_counts k input = one_pass_counts input :=
  runChunks_chunks k [] input

theorem pipe_counts_eq_tokens (k : Nat) (input : List Nat)
    (hv : validUtf8 (makeAsciiLowercase input) = true) :
    FunWithThreads.word_counts k input
      = (splitAsciiWhitespace (makeAsciiLowercase input)).foldl increment [] := by
  unfold FunWithThreads.word_counts FunWithThreads.ready_bytes_buffer
  rw [ready_words_chunks k input hv]

end CountWords

namespace CountWords

theorem any_key_iff (m : CountMap) (word : List Nat) :
    m.any (fun p => p.1 == word) = true ↔ word ∈ m.map Prod.fst := by
  simp [List.any_eq_true]

theorem bumpExisting_keys (word : List Nat) (m : CountMap) :
    (bumpExisting word m).map Prod.fst = m.map Prod.fst := by
  induction m with
  | nil => rfl
  | cons q rest ih =>
    by_cases hq : q.1 = word <;> simp [bumpExisting, hq, ih]

theorem bumpExisting_snd_sum (word : List Nat) (m : CountMap)
    (hmem : word ∈ m.map Prod.fst) :
    ((bumpExisting word m).map Prod.snd).sum = (m.map Prod.snd).sum + 1 := by
  induction m with
  | nil => simp at hmem
  | cons q rest ih =>
    by_cases hq : q.1 = word
    · simp only [bumpExisting, if_pos hq, List.map_cons, List.sum_cons]
      omega
    · have hmem2 : word ∈ rest.map Prod.fst := by
        simp only [List.map_cons, List.mem_cons] at hmem
        rcases hmem with h | h
        · exact absurd h.symm hq
        · exact h
      simp only [bumpExisting, if_neg hq, List.map_cons, List.sum_cons, ih hmem2]
      omega

theorem bumpExisting_mem (word : List Nat) (m : CountMap) (p : List Nat × Nat)
    (hp : p ∈ bumpExisting word m) : p ∈ m ∨ p.1 = word := by
  induction m with
  | nil => simp [bumpExisting] at hp
  | cons q rest ih =>
    by_cases hq : q.1 = word
    · simp only [bumpExisting, if_pos hq, List.mem_cons] at hp
      rcases hp with rfl | hp
      · exact Or.inr hq
      · exact Or.inl (List.mem_cons_of_mem q hp)
    · simp only [bumpExisting, if_neg hq, List.mem_cons] at hp
      rcases hp with rfl | hp
      · exact Or.inl (List.mem_cons_self p rest)
      · rcases ih hp with h | h
        · exact Or.inl (List.mem_cons_of_mem q h)
        · exact Or.inr h

theorem bumpExisting_pos (word : List Nat) (m : CountMap)
    (h : ∀ p ∈ m, 1 ≤ p.2) : ∀ p ∈ bumpExisting word m, 1 ≤ p.2 := by
  induction m with
  | nil => simp [bumpExisting]
  | cons q rest ih =>
    intro p hp
    by_cases hq : q.1 = word
    · simp only [bumpExisting, if_pos hq, List.mem_cons] at hp
      rcases hp with rfl | hp
      · simp
      · exact h p (List.mem_cons_of_mem q hp)
    · simp only [bumpExisting, if_neg hq, List.mem_cons] at hp
      rcases hp with rfl | hp
      · exact h p (List.mem_cons_self p rest)
      · exact ih (fun x hx => h x (List.mem_cons_of_mem q hx)) p hp

theorem increment_sum (m : CountMap) (word : List Nat) :
    ((increment m word).map Prod.snd).sum = (m.map Prod.snd).sum + 1 := by
  unfold increment
  by_cases h : m.any (fun p => p.1 == word) = true
  · rw [if_pos h]
    exact bumpExisting_snd_sum word m ((any_key_iff m word).mp h)
  · rw [if_neg h]
    simp

theorem increment_nodup (m : CountMap) (word : List Nat)
    (h : (m.map Prod.fst).Nodup) :
    ((increment m word).map Prod.fst).Nodup := by
  unfold increment
  by_cases hm : m.any (fun p => p.1 == word) = true
  · rw [if_pos hm, bumpExisting_keys]
    exact h
  · rw [if_neg hm]
    have hnot : word ∉ m.map Prod.fst := fun hmem => hm ((any_key_iff m word).mpr hmem)
    rw [List.map_append]
    simp only [List.map_cons, List.map_nil]
    rw [List.nodup_append]
    refine ⟨h, List.nodup_singleton word, ?_⟩
    intro x hx
    simp only [List.mem_singleton]
    intro he
    exact hnot (he ▸ hx)

theorem increment_mem (m : CountMap) (word : List Nat) (p : List Nat × Nat)
    (hp : p ∈ increment m word) : p ∈ m ∨ p.1 = word := by
  unfold increment at hp
  by_cases hm : m.any (fun p => p.1 == word) = true
  · rw [if_pos hm] at hp
    exact bumpExisting_mem word m p hp
  · rw [if_neg hm] at hp
    rcases List.mem_append.mp hp with h | h
    · exact Or.inl h
    · rcases List.mem_singleton.mp h with rfl
      exact Or.inr rfl

theorem increment_pos (m : CountMap) (word : List Nat)
    (h : ∀ p ∈ m, 1 ≤ p.2) : ∀ p ∈ increment m word, 1 ≤ p.2 := by
  unfold increment
  by_cases hm : m.any (fun p => p.1 == word) = true
  · rw [if_pos hm]
    exact bumpExisting_pos word m h
  · rw [if_neg hm]
    intro p hp
    rcases List.mem_append.mp hp with hx | hx
    · exact h p hx
    · rcases List.mem_singleton.mp hx with rfl
      simp

theorem foldl_increment_invariants (ws : List (List Nat)) :
    ∀ m : CountMap, (m.map Prod.fst).Nodup → (∀ p ∈ m, 1 ≤ p.2) →
      ((ws.foldl increment m).map Prod.snd).sum
          = (m.map Prod.snd).sum + ws.length
        ∧ ((ws.foldl increment m).map Prod.fst).Nodup
        ∧ ∀ p ∈ ws.foldl increment m, 1 ≤ p.2 := by
  induction ws with
  | nil =>
    intro m hnd hpos
    exact ⟨rfl, hnd, hpos⟩
  | cons w ws ih =>
    intro m hnd hpos
    obtain ⟨h1, h2, h3⟩ := ih (increment m w)
      (increment_nodup m w hnd) (increment_pos m w hpos)
    simp only [List.foldl_cons]
    refine ⟨?_, h2, h3⟩
    rw [h1, increment_sum]
    simp only [List.length_cons]
    omega

theorem foldl_increment_keys (ws : List (List Nat)) :
    ∀ (m : CountMap) (p : List Nat × Nat),
      p ∈ ws.foldl increment m → p ∈ m ∨ p.1 ∈ ws := by
  induction ws with
  | nil =>
    intro m p hp
    exact Or.inl hp
  | cons w ws ih =>
    intro m p hp
    rcases ih (increment m w) p hp with h | h
    · rcases increment_mem m w p h with h2 | h2
      · exact Or.inl h2
      · exact Or.inr (by simp [h2])
    · exact Or.inr (List.mem_cons_of_mem w h)

theorem insertByCount_perm (p : List Nat × Nat) (l : CountMap) :
    List.Perm (insertByCount p l) (p :: l) := by
  induction l with
  | nil => exact List.Perm.refl _
  | cons q rest ih =>
    by_cases h : p.2 ≤ q.2
    · simp [insertByCount, h]
    · simp only [insertByCount, if_neg h]
      exact List.Perm.trans (ih.cons q) (List.Perm.swap p q rest)

theorem sort_unstable_by_key_perm (l : CountMap) :
    List.Perm (sort_unstable_by_key l) l := by
  induction l with
  | nil => exact List.Perm.refl _
  | cons p rest ih =>
    simp only [sort_unstable_by_key]
    exact List.Perm.trans (insertByCount_perm p _) (ih.cons p)

theorem insertByCount_sorted (p : List Nat × Nat) (l : CountMap)
    (h : l.Pairwise (fun a b => a.2 ≤ b.2)) :
    (insertByCount p l).Pairwise (fun a b => a.2 ≤ b.2) := by
  induction l with
  | nil => simp [insertByCount]
  | cons q rest ih =>
    rcases List.pairwise_cons.mp h with ⟨hq, hrest⟩
    by_cases hpq : p.2 ≤ q.2
    · simp only [insertByCount, if_pos hpq]
      refine List.pairwise_cons.mpr ⟨?_, h⟩
      intro x hx
      rcases List.mem_cons.mp hx with rfl | hx
      · exact hpq
      · exact le_trans hpq (hq x hx)
    · simp only [insertByCount, if_neg hpq]
      refine List.pairwise_cons.mpr ⟨?_, ih hrest⟩
      intro x hx
      have hmem := (insertByCount_perm p rest).mem_iff.mp hx
      rcases List.mem_cons.mp hmem with rfl | hx2
      · omega
      · exact hq x hx2

theorem sort_unstable_by_key_sorted (l : CountMap) :
    (sort_unstable_by_key l).Pairwise (fun a b => a.2 ≤ b.2) := by
  induction l with
  | nil => simp [sort_unstable_by_key]
  | cons p rest ih => exact insertByCount_sorted p _ ih

theorem emit_order_desc (counts : CountMap) :
    ((sort_unstable_by_key counts).reverse).Pairwise (fun a b => b.2 ≤ a.2) := by
  rw [List.pairwise_reverse]
  exact sort_unstable_by_key_sorted counts

end CountWords

namespace CountWords

theorem splitAsciiWhitespace_subset (l t : List Nat) (b : Nat)
    (ht : t ∈ splitAsciiWhitespace l) (hb : b ∈ t) : b ∈ l := by
  rcases splitAuxWS_subset l [] t b ht hb with h | h
  · exact h
  · simp at h

theorem leaked_bytes_eq (k : Nat) (input : List Nat) :
    FastSimple.leaked_bytes k input = input.length := by
  unfold FastSimple.leaked_bytes
  rw [← List.length_flatten, chunks_flatten]

/-- Claim C1: for every chunk size of at least one byte and every input byte
stream, the word counts produced by the chunked reading loop (fill a buffer
of k bytes, then extend with read_until to the next line feed, so every chunk
ends at a whitespace boundary or at true end of stream) are identical to the
counts obtained by lowercasing and splitting the whole input in one pass; and
no token is ever split across two chunks: the per-chunk token lists
concatenate to exactly the one-pass token list. -/
theorem C1_boundary_safety (k : Nat) (hk : 1 ≤ k) (input : List Nat) :
    FastSimple.word_counts k input = one_pass_counts input
      ∧ ((chunks k input).map
          (fun c => splitAsciiWhitespace (makeAsciiLowercase c))).flatten
        = splitAsciiWhitespace (makeAsciiLowercase input) :=
  ⟨word_counts_eq_one_pass k input, chunk_tokens_flatten k input⟩

/-- Witness for C1 at chunk size 1 on the concrete stream "hi hi". -/
theorem C1_boundary_safety_witness :
    1 ≤ 1
      ∧ (FastSimple.word_counts 1 [104, 105, 32, 104, 105]
          = one_pass_counts [104, 105, 32, 104, 105]
        ∧ ((chunks 1 [104, 105, 32, 104, 105]).map
            (fun c => splitAsciiWhitespace (makeAsciiLowercase c))).flatten
          = splitAsciiWhitespace (makeAsciiLowercase [104, 105, 32, 104, 105])) :=
  ⟨by decide, C1_boundary_safety 1 (by decide) [104, 105, 32, 104, 105]⟩

/-- Counterexample to claim C2 as stated: on the stream "a, line feed, b,
line feed, 0xFF" with fill size 1, the sequential variant aborts with an
encoding failure and emits no (word, count) pairs, while the pipelined
variant swallows the tokenizer-stage failure and emits the pairs for a and b,
so the two variants do not produce identical count sets on every input. -/
theorem C2_pipeline_equivalence_counterexample :
    FastSimple.try_main 1 [97, 10, 98, 10, 255] = Except.error ()
      ∧ FunWithThreads.try_main 1 [97, 10, 98, 10, 255]
          = Except.ok (emit [([97], 1), ([98], 1)])
      ∧ FunWithThreads.word_counts 1 [97, 10, 98, 10, 255] ≠ [] :=
  ⟨rfl, rfl, by decide⟩

/-- Claim C2 as amended: on every input on which the sequential variant
succeeds, the pipelined three-thread variant computes the very same
frequency table, so both variants produce identical (word, count) sets;
on inputs where the sequential variant fails, the pipelined variant may emit
counts of an initial part instead. -/
theorem C2_pipeline_equivalence (k : Nat) (hk : 1 ≤ k) (input : List Nat)
    (m : CountMap) (hok : FastSimple.word_counts k input = Except.ok m) :
    FunWithThreads.word_counts k input = m := by
  have h1 := word_counts_eq_one_pass k input
  rw [hok] at h1
  unfold one_pass_counts at h1
  by_cases hv : validUtf8 (makeAsciiLowercase input) = true
  · rw [if_pos hv] at h1
    rw [pipe_counts_eq_tokens k input hv]
    injection h1 with h1
    exact h1.symm
  · rw [if_neg hv] at h1
    exact absurd h1 (by simp)

/-- Witness for C2 at chunk size 1 on the concrete stream "a b a". -/
theorem C2_pipeline_equivalence_witness :
    1 ≤ 1
      ∧ FastSimple.word_counts 1 [97, 32, 98, 32, 97]
          = Except.ok [([97], 2), ([98], 1)]
      ∧ FunWithThreads.word_counts 1 [97, 32, 98, 32, 97]
          = [([97], 2), ([98], 1)] :=
  ⟨by decide, rfl,
    C2_pipeline_equivalence 1 (by decide) [97, 32, 98, 32, 97]
      [([97], 2), ([98], 1)] rfl⟩

/-- Counterexample to claim C3 as stated: on the stream "a, line feed, b,
line feed, 0xFF" an encoding failure occurs (the lowercased input is not
valid UTF-8), yet the pipelined variant exits with code 0 and prints no
diagnostic line, because the worker-thread failure is discarded. -/
theorem C3_failure_exit_counterexample :
    validUtf8 (makeAsciiLowercase [97, 10, 98, 10, 255]) = false
      ∧ FunWithThreads.main 1 [97, 10, 98, 10, 255]
          = { exitCode := 0,
              stdout := [[98, 32, 49, 10], [97, 32, 49, 10]],
              stderrLines := 0 } :=
  ⟨by decide, by decide⟩

/-- Claim C3 as amended: on an encoding failure the sequential variant
terminates with exit code 1, exactly one diagnostic line on the error stream
and no output; the pipelined variant swallows worker-stage read and encoding
failures (the failing stage just stops producing), completes normally, and
exits with code 0 and no diagnostic. -/
theorem C3_failure_exit (k : Nat) (input : List Nat) (hk : 1 ≤ k)
    (hbad : validUtf8 (makeAsciiLowercase input) = false) :
    (FastSimple.main k input).exitCode = 1
      ∧ (FastSimple.main k input).stderrLines = 1
      ∧ (FastSimple.main k input).stdout = []
      ∧ (FunWithThreads.main k input).exitCode = 0
      ∧ (FunWithThreads.main k input).stderrLines = 0 := by
  have h1 := word_counts_eq_one_pass k input
  unfold one_pass_counts at h1
  rw [hbad] at h1
  simp only [Bool.false_eq_true, if_false] at h1
  unfold FastSimple.main FastSimple.try_main
  rw [h1]
  exact ⟨rfl, rfl, rfl, rfl, rfl⟩

/-- Witness for C3 at chunk size 1 on the single invalid byte 0xFF. -/
theorem C3_failure_exit_witness :
    (1 ≤ 1 ∧ validUtf8 (makeAsciiLowercase [255]) = false)
      ∧ ((FastSimple.main 1 [255]).exitCode = 1
        ∧ (FastSimple.main 1 [255]).stderrLines = 1
        ∧ (FastSimple.main 1 [255]).stdout = []
        ∧ (FunWithThreads.main 1 [255]).exitCode = 0
        ∧ (FunWithThreads.main 1 [255]).stderrLines = 0) :=
  ⟨by decide, C3_failure_exit 1 [255] (by decide) (by decide)⟩

/-- Claim C4: the emitter sorts the drained (word, count) pairs ascending by
count (a permutation of the table), iterates in reverse so lines are in
descending count order, formats every line as word, space, decimal count,
line feed, flushes the sink after the last line, and every word in a table
produced by the counting loop is free of ASCII uppercase bytes; the example
table x:5, y:9, z:1 is emitted as lines y 9, x 5, z 1. -/
theorem C4_emitter (counts : CountMap) (k : Nat) (input : List Nat)
    (m : CountMap) (hk : 1 ≤ k)
    (hok : FastSimple.word_counts k input = Except.ok m) :
    ((sort_unstable_by_key counts).reverse).Pairwise (fun a b => b.2 ≤ a.2)
      ∧ List.Perm (sort_unstable_by_key counts) counts
      ∧ (emit counts).lines
          = ((sort_unstable_by_key counts).reverse).map
              (fun p => p.1 ++ [32] ++ decimalDigits p.2 ++ [10])
      ∧ (emit counts).flushed = true
      ∧ (∀ p ∈ m, ∀ b ∈ p.1, ¬(65 ≤ b ∧ b ≤ 90))
      ∧ (emit [([120], 5), ([121], 9), ([122], 1)]).lines
          = [[121, 32, 57, 10], [120, 32, 53, 10], [122, 32, 49, 10]] := by
  refine ⟨emit_order_desc counts, sort_unstable_by_key_perm counts, rfl, rfl,
    ?_, by decide⟩
  intro p hp b hb
  have h1 := word_counts_eq_one_pass k input
  rw [hok] at h1
  unfold one_pass_counts at h1
  by_cases hv : validUtf8 (makeAsciiLowercase input) = true
  · rw [if_pos hv] at h1
    injection h1 with h1
    subst h1
    rcases foldl_increment_keys _ [] p hp with hc | hc
    · simp at hc
    · have hbl := splitAsciiWhitespace_subset (makeAsciiLowercase input) p.1 b hc hb
      rcases List.mem_map.mp hbl with ⟨a, _, ha⟩
      unfold makeAsciiLowercaseByte at ha
      by_cases h65 : 65 ≤ a ∧ a ≤ 90
      · rw [if_pos h65] at ha
        omega
      · rw [if_neg h65] at ha
        omega
  · rw [if_neg hv] at h1
    exact absurd h1 (by simp)

/-- Witness for C4: descending order of the example table and absence of
uppercase bytes in the table counted from the concrete stream "a". -/
theorem C4_emitter_witness :
    ((sort_unstable_by_key [([120], 5), ([121], 9), ([122], 1)]).reverse).Pairwise
        (fun a b => b.2 ≤ a.2)
      ∧ (∀ p ∈ ([([97], 1)] : CountMap), ∀ b ∈ p.1, ¬(65 ≤ b ∧ b ≤ 90)) :=
  ⟨(C4_emitter [([120], 5), ([121], 9), ([122], 1)] 1 [97] [([97], 1)]
      (by decide) rfl).1,
    (C4_emitter [([120], 5), ([121], 9), ([122], 1)] 1 [97] [([97], 1)]
      (by decide) rfl).2.2.2.2.1⟩

/-- Claim C5: increment performs a single membership lookup; on a miss it
appends the word with count 1 through the insertion path that assumes
non-membership, on a hit it raises the existing count by one (so the total
count always grows by exactly one); consequently the table built from any
token sequence has count sum equal to the number of tokens, unique keys, and
every stored count at least 1. -/
theorem C5_increment_invariants (ws : List (List Nat)) (m : CountMap)
    (word : List Nat) (hmiss : m.any (fun p => p.1 == word) = false) :
    increment m word = m ++ [(word, 1)]
      ∧ (∀ (m2 : CountMap) (w2 : List Nat),
          ((increment m2 w2).map Prod.snd).sum = (m2.map Prod.snd).sum + 1)
      ∧ ((ws.foldl increment []).map Prod.snd).sum = ws.length
      ∧ ((ws.foldl increment []).map Prod.fst).Nodup
      ∧ ∀ p ∈ ws.foldl increment [], 1 ≤ p.2 := by
  obtain ⟨h1, h2, h3⟩ := foldl_increment_invariants ws [] (by simp) (by simp)
  refine ⟨?_, increment_sum, by simpa using h1, h2, h3⟩
  unfold increment
  rw [hmiss]
  simp

/-- Witness for C5: a miss on the word "b" against the singleton table
for "a", counted over the token sequence a, b, a. -/
theorem C5_increment_invariants_witness :
    ([([97], 1)] : CountMap).any (fun p => p.1 == [98]) = false
      ∧ increment [([97], 1)] [98] = [([97], 1), ([98], 1)]
      ∧ (([[97], [98], [97]].foldl increment []).map Prod.snd).sum = 3 := by
  refine ⟨by decide, ?_, ?_⟩
  · have h := (C5_increment_invariants [[97], [98], [97]] [([97], 1)] [98]
      (by decide)).1
    simpa using h
  · exact (C5_increment_invariants [[97], [98], [97]] [([97], 1)] [98]
      (by decide)).2.2.1

/-- Claim C6: normalization maps every ASCII uppercase byte to its lowercase
counterpart (plus 32) and leaves every non-ASCII byte unchanged, and it runs
before tokenization, so counting is case-insensitive for ASCII: the stream
"The The the" yields exactly the count 3 for the word "the". -/
theorem C6_normalization (b c : Nat) (hb1 : 65 ≤ b) (hb2 : b ≤ 90)
    (hc : 128 ≤ c) :
    makeAsciiLowercaseByte b = b + 32
      ∧ makeAsciiLowercaseByte c = c
      ∧ FastSimple.word_counts IN_BUFFER_SIZE
          [84, 104, 101, 32, 84, 104, 101, 32, 116, 104, 101]
        = Except.ok [([116, 104, 101], 3)] := by
  refine ⟨?_, ?_, rfl⟩
  · unfold makeAsciiLowercaseByte
    rw [if_pos ⟨hb1, hb2⟩]
  · unfold makeAsciiLowercaseByte
    rw [if_neg (by omega)]

/-- Witness for C6 at the uppercase byte T (84) and the non-ASCII byte 200. -/
theorem C6_normalization_witness :
    (65 ≤ 84 ∧ 84 ≤ 90 ∧ 128 ≤ 200)
      ∧ makeAsciiLowercaseByte 84 = 84 + 32
      ∧ makeAsciiLowercaseByte 200 = 200 :=
  ⟨by decide,
    (C6_normalization 84 200 (by decide) (by decide) (by decide)).1,
    (C6_normalization 84 200 (by decide) (by decide) (by decide)).2.1⟩

/-- Claim C7: tokenization splits on every run of ASCII whitespace (space,
tab, line feed, form feed, carriage return), discarding the empty runs
between consecutive whitespace bytes, so every produced token is nonempty
and free of whitespace; the stream "a, tab, tab, b, line feed, line feed, c"
yields exactly the counts a:1, b:1, c:1. -/
theorem C7_whitespace_tokenization (l t : List Nat)
    (ht : t ∈ splitAsciiWhitespace l) :
    (isAsciiWhitespace 32 = true ∧ isAsciiWhitespace 9 = true
      ∧ isAsciiWhitespace 10 = true ∧ isAsciiWhitespace 12 = true
      ∧ isAsciiWhitespace 13 = true)
      ∧ t ≠ []
      ∧ (∀ b ∈ t, isAsciiWhitespace b = false)
      ∧ FastSimple.word_counts IN_BUFFER_SIZE [97, 9, 9, 98, 10, 10, 99]
          = Except.ok [([97], 1), ([98], 1), ([99], 1)] := by
  refine ⟨by decide, splitAuxWS_ne_nil l [] t ht, ?_, rfl⟩
  exact splitAuxWS_no_ws l [] (by simp) t ht

/-- Witness for C7 on the token "a" of the stream "a b". -/
theorem C7_whitespace_tokenization_witness :
    ([97] ∈ splitAsciiWhitespace [97, 32, 98])
      ∧ ([97] ≠ [] ∧ ∀ b ∈ ([97] : List Nat), isAsciiWhitespace b = false) := by
  refine ⟨by decide, ?_, ?_⟩
  · exact (C7_whitespace_tokenization [97, 32, 98] [97] (by decide)).2.1
  · exact (C7_whitespace_tokenization [97, 32, 98] [97] (by decide)).2.2.1

/-- Claim C8: on empty input both variants produce the empty table, emit
zero output lines (after a flush) and exit with code 0 and no diagnostic. -/
theorem C8_empty_input (k : Nat) :
    FastSimple.word_counts k [] = Except.ok []
      ∧ FastSimple.main k [] = { exitCode := 0, stdout := [], stderrLines := 0 }
      ∧ FunWithThreads.word_counts k [] = []
      ∧ FunWithThreads.main k []
          = { exitCode := 0, stdout := [], stderrLines := 0 }
      ∧ (emit []).lines = [] ∧ (emit []).flushed = true :=
  ⟨rfl, rfl, rfl, rfl, rfl, rfl⟩

/-- Counterexample to claim C9 as stated: the bytes retained by the
sequential variant (every chunk buffer is passed to Vec::leak on line 81 and
never freed, the table keys borrow from these leaked buffers) have no bound
independent of the input: for any candidate bound there is an input whose
leaked bytes exceed it. -/
theorem C9_memory_counterexample :
    ¬ ∃ bound : Nat, ∀ input : List Nat,
        FastSimple.leaked_bytes IN_BUFFER_SIZE input ≤ bound := by
  rintro ⟨bound, hb⟩
  have h := hb (List.replicate (bound + 1) 97)
  rw [leaked_bytes_eq] at h
  simp only [List.length_replicate] at h
  omega

/-- Claim C9 as amended: the program never needs the whole input resident
before processing starts (it reads chunk by chunk), but the sequential
variant leaks every chunk buffer, so the memory retained over a run equals
the total input length instead of being bounded independently of it. -/
theorem C9_memory_linear (k : Nat) (input : List Nat) :
    FastSimple.leaked_bytes k input = input.length :=
  leaked_bytes_eq k input

/-- Counterexample to claim C10 as stated: two runs on the same invalid
stream "a, line feed, b, line feed, 0xFF" that differ only in how much a
buffer fill returns (1 byte against 5 bytes) make the pipelined variant emit
different count sets, because the tokenizer stage stops at the first invalid
chunk and chunk boundaries decide how much was tokenized before that. -/
theorem C10_determinism_counterexample :
    FunWithThreads.word_counts 1 [97, 10, 98, 10, 255] = [([97], 1), ([98], 1)]
      ∧ FunWithThreads.word_counts 5 [97, 10, 98, 10, 255] = []
      ∧ FunWithThreads.word_counts 1 [97, 10, 98, 10, 255]
          ≠ FunWithThreads.word_counts 5 [97, 10, 98, 10, 255] :=
  ⟨by decide, by decide, by decide⟩

/-- Claim C10 as amended: the sequential variant is deterministic on every
input (its result does not depend on the fill-size schedule), and the
pipelined variant is deterministic on every input whose lowercased bytes are
valid UTF-8; on invalid inputs the pipelined counts may depend on where the
chunk boundaries fall. -/
theorem C10_determinism (k1 k2 : Nat) (input : List Nat)
    (h1 : 1 ≤ k1) (h2 : 1 ≤ k2) :
    FastSimple.word_counts k1 input = FastSimple.word_counts k2 input
      ∧ (validUtf8 (makeAsciiLowercase input) = true →
          FunWithThreads.word_counts k1 input
            = FunWithThreads.word_counts k2 input) := by
  constructor
  · rw [word_counts_eq_one_pass k1 input, word_counts_eq_one_pass k2 input]
  · intro hv
    rw [pipe_counts_eq_tokens k1 input hv, pipe_counts_eq_tokens k2 input hv]

/-- Witness for C10 at chunk sizes 1 and 2 on the concrete stream "a". -/
theorem C10_determinism_witness :
    (1 ≤ 1 ∧ 1 ≤ 2)
      ∧ FastSimple.word_counts 1 [97] = FastSimple.word_counts 2 [97]
      ∧ (validUtf8 (makeAsciiLowercase [97]) = true →
          FunWithThreads.word_counts 1 [97] = FunWithThreads.word_counts 2 [97]) :=
  ⟨by decide, (C10_determinism 1 2 [97] (by decide) (by decide)).1,
    (C10_determinism 1 2 [97] (by decide) (by decide)).2⟩

end CountWords
